import Mathlib

/-!
Verification of the pull-query compiler of the declarative-dataflow
repository (file `src/plan/pull.rs`).  Pure row manipulation
(`interleave`, the per-row closures of `PullLevel::implement`,
`PullAll::implement`, `Pull::implement`, `dependencies`) is embedded as
executable Lean functions; dataflow collections are embedded as lists of
(row, timestamp, diff) entries, where a row of `none` models a per-row
closure that aborts the process at execution time (a Rust index or
`expect` failure inside a dataflow operator).  Compile-time aborts of
`implement` itself (`expect` on `binds`, the missing-attribute abort, the
`assert!` of `PullAll`) are modelled with `Except`.
-/

set_option autoImplicit false

namespace DDflow

/-- Modelled from the spec: the tagged-union `Value` type (entity ids,
attribute names, strings, numbers, booleans); the type itself lives
outside `src/`.  The attribute type parameter `A : AsAid` of the source
is instantiated at attribute names (strings), with `into_value`
producing `Value.Aid`, as used by `pull.rs` (labels and the `db__id`
marker are pushed as `Value::Aid`). -/
inductive Value where
  | Aid : String → Value
  | Eid : Nat → Value
  | Str : String → Value
  | Number : Int → Value
  | Boolean : Bool → Value
deriving DecidableEq, Repr

/-- Attribute names, the instantiation of the `AsAid` parameter. -/
abbrev Aid : Type := String

/-- Modelled from the spec: `into_value` of the `AsAid` trait. -/
def Aid.intoValue (a : Aid) : Value := Value.Aid a

/-- Symbolic variables are numbered, as in the source crate. -/
abbrev Var : Type := Nat

/-- One iteration of the `for i in 0..size` loop of `interleave`
(`pull.rs` lines 63-74), with the fuel argument counting the remaining
iterations (`size - i`).  Even indices read `values[next_value]`, odd
indices read `constants[next_const]`; an out-of-range index models the
Rust indexing abort and yields `none`. -/
def interleaveLoop (values : List Value) (constants : List Aid) :
    Nat → Nat → Nat → Nat → Option (List Value)
  | 0, _, _, _ => some []
  | fuel + 1, i, nextValue, nextConst =>
    if i % 2 = 0 then
      match values[nextValue]? with
      | none => none
      | some v =>
        (interleaveLoop values constants fuel (i + 1) (nextValue + 1) nextConst).map
          (fun rest => v :: rest)
    else
      match constants[nextConst]? with
      | none => none
      | some c =>
        (interleaveLoop values constants fuel (i + 1) nextValue (nextConst + 1)).map
          (fun rest => Value.Aid c :: rest)

/-- Translation of `interleave` (`pull.rs` lines 52-78): if either input
is empty the `values` are returned unchanged, otherwise the loop fills
`values.length + constants.length` positions, values on even positions
and constants (as `Value.Aid`) on odd positions. -/
def interleave (values : List Value) (constants : List Aid) : Option (List Value) :=
  if values.isEmpty || constants.isEmpty then some values
  else interleaveLoop values constants (values.length + constants.length) 0 0 0

/-- Structural description of a successful interleaving: pairs of one
value and one attribute label, followed by the leftover values. -/
def zipInterleave : List Value → List Aid → List Value
  | x :: xs, y :: ys => x :: Value.Aid y :: zipInterleave xs ys
  | xs, [] => xs
  | [], _ :: _ => []

theorem interleaveLoop_length (values : List Value) (constants : List Aid) :
    ∀ fuel i nv nc r, interleaveLoop values constants fuel i nv nc = some r →
      r.length = fuel := by
  intro fuel
  induction fuel with
  | zero =>
    intro i nv nc r h
    simp [interleaveLoop] at h
    simp [← h]
  | succ n ih =>
    intro i nv nc r h
    by_cases hpar : i % 2 = 0
    · simp only [interleaveLoop, if_pos hpar] at h
      cases hv : values[nv]? with
      | none => rw [hv] at h; exact absurd h (by simp)
      | some v =>
        rw [hv] at h
        cases hrec : interleaveLoop values constants n (i + 1) (nv + 1) nc with
        | none => rw [hrec] at h; exact absurd h (by simp)
        | some rest =>
          rw [hrec] at h
          simp at h
          rw [← h]
          simp [ih _ _ _ _ hrec]
    · simp only [interleaveLoop, if_neg hpar] at h
      cases hv : constants[nc]? with
      | none => rw [hv] at h; exact absurd h (by simp)
      | some c =>
        rw [hv] at h
        cases hrec : interleaveLoop values constants n (i + 1) nv (nc + 1) with
        | none => rw [hrec] at h; exact absurd h (by simp)
        | some rest =>
          rw [hrec] at h
          simp at h
          rw [← h]
          simp [ih _ _ _ _ hrec]

theorem interleaveLoop_eq_zipInterleave (values : List Value) (constants : List Aid)
    (hcv : constants.length ≤ values.length)
    (hvc : values.length ≤ constants.length + 1) :
    ∀ m k, k + m = constants.length →
      interleaveLoop values constants (values.length + constants.length - 2 * k)
        (2 * k) k k = some (zipInterleave (values.drop k) (constants.drop k)) := by
  intro m
  induction m with
  | zero =>
    intro k hk
    simp only [Nat.add_zero] at hk
    subst hk
    rcases Nat.lt_or_ge values.length (constants.length + 1) with hlt | hge
    · have hv : values.length = constants.length := Nat.le_antisymm (Nat.lt_succ_iff.mp hlt) hcv
      have hfuel : values.length + constants.length - 2 * constants.length = 0 := by omega
      rw [hfuel]
      have hdv : values.drop constants.length = [] := List.drop_eq_nil_of_le (by omega)
      have hdc : constants.drop constants.length = [] := List.drop_eq_nil_of_le (by omega)
      rw [hdv, hdc]
      rfl
    · have hv : values.length = constants.length + 1 := Nat.le_antisymm hvc hge
      have hfuel : values.length + constants.length - 2 * constants.length = 1 := by omega
      rw [hfuel]
      have hidx : constants.length < values.length := by omega
      have hget : values[constants.length]? = some values[constants.length] :=
        List.getElem?_eq_getElem hidx
      simp only [interleaveLoop, Nat.mul_mod_right, if_pos rfl]
      rw [hget]
      have hdv : values.drop constants.length = [values[constants.length]] := by
        rw [List.drop_eq_getElem_cons hidx]
        have : values.drop (constants.length + 1) = [] := List.drop_eq_nil_of_le (by omega)
        rw [this]
      have hdc : constants.drop constants.length = [] := List.drop_eq_nil_of_le (by omega)
      rw [hdv, hdc]
      rfl
  | succ n ih =>
    intro k hk
    have hkc : k < constants.length := by omega
    have hkv : k < values.length := by omega
    have hfuel : values.length + constants.length - 2 * k =
        (values.length + constants.length - 2 * (k + 1)) + 1 + 1 := by omega
    rw [hfuel]
    have hgetv : values[k]? = some values[k] := List.getElem?_eq_getElem hkv
    have hgetc : constants[k]? = some constants[k] := List.getElem?_eq_getElem hkc
    have hpar1 : 2 * k % 2 = 0 := Nat.mul_mod_right 2 k
    have hpar2 : ¬((2 * k + 1) % 2 = 0) := by omega
    conv_lhs => rw [interleaveLoop]
    rw [if_pos hpar1, hgetv]
    conv_lhs => rw [interleaveLoop]
    rw [if_neg hpar2, hgetc]
    have harg : 2 * k + 1 + 1 = 2 * (k + 1) := by omega
    rw [harg]
    rw [ih (k + 1) (by omega)]
    have hdv : values.drop k = values[k] :: values.drop (k + 1) :=
      List.drop_eq_getElem_cons hkv
    have hdc : constants.drop k = constants[k] :: constants.drop (k + 1) :=
      List.drop_eq_getElem_cons hkc
    rw [hdv, hdc]
    rfl

theorem interleave_eq_zipInterleave (values : List Value) (constants : List Aid)
    (hv : values ≠ []) (hc : constants ≠ [])
    (hcv : constants.length ≤ values.length)
    (hvc : values.length ≤ constants.length + 1) :
    interleave values constants = some (zipInterleave values constants) := by
  have h := interleaveLoop_eq_zipInterleave values constants hcv hvc constants.length 0 (by omega)
  simp only [Nat.mul_zero, Nat.sub_zero, List.drop_zero] at h
  rw [interleave]
  rw [if_neg (by simp [hv, hc])]
  exact h

theorem zipInterleave_length (values : List Value) (constants : List Aid)
    (hcv : constants.length ≤ values.length) :
    (zipInterleave values constants).length = values.length + constants.length := by
  induction constants generalizing values with
  | nil => cases values <;> simp [zipInterleave]
  | cons c cs ih =>
    cases values with
    | nil => simp at hcv
    | cons v vs =>
      simp only [zipInterleave, List.length_cons]
      have := ih vs (by simpa using hcv)
      omega

theorem zipInterleave_getElem_even (values : List Value) (constants : List Aid)
    (hcv : constants.length ≤ values.length)
    (hvc : values.length ≤ constants.length + 1) :
    ∀ i, (zipInterleave values constants)[2 * i]? = values[i]? := by
  induction constants generalizing values with
  | nil =>
    intro i
    cases values with
    | nil => simp [zipInterleave]
    | cons v vs =>
      simp only [List.length_cons, List.length_nil] at hvc
      have : vs = [] := List.eq_nil_of_length_eq_zero (by omega)
      subst this
      cases i with
      | zero => simp [zipInterleave]
      | succ n =>
        have h2 : 2 * (n + 1) = n + (n + 2) := by omega
        simp [zipInterleave, h2]
        omega
  | cons c cs ih =>
    intro i
    cases values with
    | nil => simp at hcv
    | cons v vs =>
      cases i with
      | zero => simp [zipInterleave]
      | succ n =>
        have h2 : 2 * (n + 1) = 2 * n + 1 + 1 := by omega
        simp only [zipInterleave, h2, List.getElem?_cons_succ]
        exact ih vs (by simp at hcv; omega) (by simp at hvc; omega) n

theorem zipInterleave_getElem_odd (values : List Value) (constants : List Aid)
    (hcv : constants.length ≤ values.length)
    (hvc : values.length ≤ constants.length + 1) :
    ∀ i, (zipInterleave values constants)[2 * i + 1]? = (constants[i]?).map Value.Aid := by
  induction constants generalizing values with
  | nil =>
    intro i
    cases values with
    | nil => simp [zipInterleave]
    | cons v vs =>
      simp only [List.length_cons, List.length_nil] at hvc
      have : vs = [] := List.eq_nil_of_length_eq_zero (by omega)
      subst this
      simp [zipInterleave]
  | cons c cs ih =>
    intro i
    cases values with
    | nil => simp at hcv
    | cons v vs =>
      cases i with
      | zero => simp [zipInterleave]
      | succ n =>
        have h2 : 2 * (n + 1) + 1 = 2 * n + 1 + 1 + 1 := by omega
        simp only [zipInterleave, h2, List.getElem?_cons_succ]
        exact ih vs (by simp at hcv; omega) (by simp at hvc; omega) n

/-- C1 (amended): when either input is empty, `interleave` returns
`values` unchanged.  When both inputs are non-empty and additionally
`constants.length ≤ values.length ≤ constants.length + 1`, the result
has length `values.length + constants.length`, carries `values[i]` at
position `2 * i` and `constants[i]` (as a `Value.Aid`) at position
`2 * i + 1`, preserving relative order.  For any other pair of non-empty
lengths the loop indexes one input out of range and the process aborts
(modelled by `none`), so the original claim's unrestricted non-empty
case fails. -/
theorem interleave_spec_amended :
    (∀ (values : List Value) (constants : List Aid),
      values = [] ∨ constants = [] → interleave values constants = some values)
  ∧ (∀ (values : List Value) (constants : List Aid),
      values ≠ [] → constants ≠ [] →
      constants.length ≤ values.length → values.length ≤ constants.length + 1 →
      ∃ r, interleave values constants = some r ∧
        r.length = values.length + constants.length ∧
        (∀ i, r[2 * i]? = values[i]?) ∧
        (∀ i, r[2 * i + 1]? = (constants[i]?).map Value.Aid)) := by
  constructor
  · intro values constants h
    rw [interleave]
    rcases h with h | h <;> simp [h]
  · intro values constants hv hc hcv hvc
    refine ⟨zipInterleave values constants,
      interleave_eq_zipInterleave values constants hv hc hcv hvc,
      zipInterleave_length values constants hcv,
      zipInterleave_getElem_even values constants hcv hvc,
      zipInterleave_getElem_odd values constants hcv hvc⟩

/-- C1 witness: the amended theorem applied at concrete inputs. -/
theorem interleave_spec_amended_witness :
    interleave [] ["a"] = some []
  ∧ (interleave [Value.Eid 0, Value.Eid 1] ["p"]).isSome = true := by
  constructor
  · exact interleave_spec_amended.1 [] ["a"] (Or.inl rfl)
  · obtain ⟨r, hr, -, -, -⟩ :=
      interleave_spec_amended.2 [Value.Eid 0, Value.Eid 1] ["p"]
        (by decide) (by decide) (by decide) (by decide)
    rw [hr]
    rfl

/-- C1 counterexample: both inputs non-empty, but because the inputs
have mismatched lengths (here one value against two constants) the loop
indexes `values` out of range and the process aborts, instead of
returning the interleaved sequence of length 3 that the claim
promises. -/
theorem interleave_counterexample :
    ([Value.Eid 0] : List Value) ≠ []
  ∧ (["a", "b"] : List Aid) ≠ []
  ∧ interleave [Value.Eid 0] ["a", "b"] = none := by
  refine ⟨by decide, by decide, ?_⟩
  rfl

/-- Modelled from the spec: a `ShutdownHandle` is an aggregatable
collection of release buttons (`merge_with` unions two handles,
`add_button` adds one).  Buttons are numbered tokens. -/
abbrev ShutdownHandle : Type := List Nat

/-- Timestamps of the outer scope are naturals (a totally ordered
lattice); nested-scope timestamps pair an outer time with the synthetic
iteration counter of the `Iterative` child scope (`Product`). -/
abbrev NestedTime : Type := Nat × Nat

/-- One entry of a dataflow collection of rows: the row (with `none`
modelling a per-row closure that aborts the process at execution time),
its nested-scope timestamp and its signed multiplicity. -/
abbrev RowEntry : Type := Option (List Value) × NestedTime × Int

/-- Modelled from the spec: the frontier-bounded snapshot of one
attribute's `propose` index (entity to value, keyed by outer time),
together with the frontier captured by `advance_frontier()` at import
time and the shutdown button returned by `import_frontier`. -/
structure ProposeTrace where
  frontier : List Nat
  rows : List ((Value × Value) × Nat × Int)
  shutdownButton : Nat
deriving DecidableEq, Repr

/-- Modelled from the spec: the Attribute Index exposed to the compiler,
`forward_propose(attribute) -> Option<Snapshot>`. -/
abbrev Domain : Type := Aid → Option ProposeTrace

/-- Modelled from the spec: a compiled relation, exposing its bound
variables, its materialized row stream, and the shutdown handle that a
`tuples` call on it yields. -/
structure ImplementedRel where
  vars : List Var
  rows : List RowEntry
  tuplesShutdown : ShutdownHandle
deriving DecidableEq, Repr

/-- Modelled from the spec: `binds` resolves a variable to its offset in
the relation's variable list. -/
def bindsVar (vs : List Var) (v : Var) : Option Nat :=
  vs.findIdx? (fun x => x == v)

/-- Lattice `advance_by` for totally ordered times: the least time that
the frontier cannot distinguish from `t` (the meet over the frontier of
the joins with `t`); an empty frontier leaves the time unchanged. -/
def advanceBy (t : Nat) : List Nat → Nat
  | [] => t
  | f :: fs => fs.foldl (fun acc x => min acc (max t x)) (max t f)

/-- The `enter_at` closure of `pull.rs` (lines 158-162 and 331-335):
the imported snapshot enters the nested scope with every timestamp
advanced to the frontier captured at import time and paired with
iteration counter 0. -/
def importProposeStream (trace : ProposeTrace) :
    List ((Value × Value) × NestedTime × Int) :=
  trace.rows.map (fun entry =>
    (entry.1, (advanceBy entry.2.1 trace.frontier, 0), entry.2.2))

/-- Keying of one input entry by the entity at `e_offset` (`pull.rs`
line 147); an out-of-range offset or an already-poisoned row models the
process abort of `t[e_offset]`. -/
def keyRow (eOffset : Nat) (entry : RowEntry) :
    Option (Value × List Value) × NestedTime × Int :=
  (entry.1.bind (fun row => (row[eOffset]?).map (fun e => (e, row))), entry.2)

/-- Timestamps of matches in a differential join are the lattice join of
the two input timestamps. -/
def joinTime (t1 t2 : NestedTime) : NestedTime :=
  (max t1.1 t2.1, max t1.2 t2.2)

/-- The `join_core` of the keyed path arrangement against one imported
attribute snapshot: every pair of entries with the same entity key emits
the closure's row at the joined time with the product of the
multiplicities.  A poisoned keyed entry surfaces as a poisoned output
entry. -/
def joinCore (ePath : List (Option (Value × List Value) × NestedTime × Int))
    (eV : List ((Value × Value) × NestedTime × Int))
    (f : List Value → Value → Option (List Value)) : List RowEntry :=
  ePath.flatMap (fun pe =>
    match pe.1 with
    | none => [(none, pe.2)]
    | some (e, path) =>
      eV.flatMap (fun ve =>
        if ve.1.1 = e then
          [(f path ve.1.2, joinTime pe.2.1 ve.2.1, pe.2.2 * ve.2.2)]
        else []))

/-- The per-match closure of `PullLevel::implement` (`pull.rs` lines
173-205): interleave the path with the path attributes, in the
cardinality-one case with non-empty path attributes drop the last
element (`pop`, aborting on an empty interleaved path), then append the
attribute label and the matched value. -/
def pullJoinRow (pathAttributes : List Aid) (cardinalityMany : Bool) (a : Aid)
    (path : List Value) (v : Value) : Option (List Value) :=
  if pathAttributes.isEmpty || cardinalityMany then
    (interleave path pathAttributes).map (fun r => r ++ [a.intoValue, v])
  else
    (interleave path pathAttributes).bind (fun r =>
      if r.isEmpty then none
      else some (r.dropLast ++ [a.intoValue, v]))

/-- The presence-row closure of `PullLevel::implement` (`pull.rs` lines
211-224): interleave the path with the path attributes, pop the trailing
entity id (aborting on an empty interleaved path), and append the
`db__id` marker followed by that entity id. -/
def dbIdRow (pathAttributes : List Aid) (path : List Value) : Option (List Value) :=
  (interleave path pathAttributes).bind (fun r =>
    match r.getLast? with
    | none => none
    | some eid => some (r.dropLast ++ [Value.Aid ("db__id"), eid]))

/-- Iteration over `pull_attributes` shared by `PullLevel::implement`
and `PullAll::implement`: each attribute is looked up in the Attribute
Index (a missing attribute aborts the process, modelled as an error, at
the first missing attribute, as the lazily built streams are consumed by
`concatenate`), and contributes one stream built by `mk` from the
snapshot it imports plus the shutdown button of the import. -/
def buildStreams (domain : Domain) (mk : Aid → ProposeTrace → List RowEntry) :
    List Aid → Except String (List (List RowEntry × Nat))
  | [] => Except.ok []
  | a :: rest =>
    match domain a with
    | none => Except.error ("attribute " ++ a ++ " does not exist")
    | some trace =>
      match buildStreams domain mk rest with
      | Except.error e => Except.error e
      | Except.ok tail => Except.ok ((mk a trace, trace.shutdownButton) :: tail)

/-- The `PullLevel` plan node (`pull.rs` lines 22-36); the sub-plan is
not stored here because `implement` is modelled as a function of the
sub-plan's already-compiled relation. -/
structure PullLevel where
  vars : List Var
  pull_variable : Var
  pull_attributes : List Aid
  path_attributes : List Aid
  cardinality_many : Bool
deriving DecidableEq, Repr

/-- Translation of `PullLevel::implement` (`pull.rs` lines 94-236) as a
function of the compiled sub-plan relation `input` and the shutdown
handle `inputShutdown` its compilation returned.  `Except.error` models
the two process-aborting `implement`-time conditions: the `expect` when
the sub-plan does not bind `pull_variable`, and the abort on an
attribute missing from the Attribute Index. -/
def PullLevel.implement (p : PullLevel) (domain : Domain)
    (input : ImplementedRel) (inputShutdown : ShutdownHandle) :
    Except String (ImplementedRel × ShutdownHandle) :=
  if p.pull_attributes.isEmpty then
    if p.path_attributes.isEmpty then
      Except.ok (input, inputShutdown)
    else
      Except.ok
        ({ vars := p.vars
           rows := input.rows.map (fun entry =>
             (entry.1.bind (fun row => interleave row p.path_attributes), entry.2))
           tuplesShutdown := [] },
         inputShutdown ++ input.tuplesShutdown)
  else
    match bindsVar input.vars p.pull_variable with
    | none => Except.error ("input relation does not bind pull_variable")
    | some eOffset =>
      match buildStreams domain
          (fun a trace =>
            joinCore (input.rows.map (keyRow eOffset)) (importProposeStream trace)
              (pullJoinRow p.path_attributes p.cardinality_many a))
          p.pull_attributes with
      | Except.error e => Except.error e
      | Except.ok streams =>
        Except.ok
          ({ vars := []
             rows :=
               if p.path_attributes.isEmpty || p.cardinality_many then
                 (streams.map Prod.fst).flatten
               else
                 (streams.map Prod.fst).flatten ++ input.rows.map (fun entry =>
                   (entry.1.bind (dbIdRow p.path_attributes), entry.2))
             tuplesShutdown := [] },
           inputShutdown ++ input.tuplesShutdown ++ streams.map Prod.snd)

/-- The `PullAll` plan node (`pull.rs` lines 289-294); field `vars`
carries the source's `variables`. -/
structure PullAll where
  vars : List Var
  pull_attributes : List Aid
deriving DecidableEq, Repr

/-- The per-attribute stream of `PullAll::implement` (`pull.rs` line
345): pure re-labeling of the imported snapshot into rows
`[entity, attribute-label, value]`, no join. -/
def pullAllStream (a : Aid) (trace : ProposeTrace) : List RowEntry :=
  (importProposeStream trace).map (fun entry =>
    (some [entry.1.1, a.intoValue, entry.1.2], entry.2))

/-- Translation of `PullAll::implement` (`pull.rs` lines 307-357).  The
`assert!` on an empty `pull_attributes` (line 319) and the abort on a
missing attribute (line 325) are the `Except.error` cases. -/
def PullAll.implement (p : PullAll) (domain : Domain) :
    Except String (ImplementedRel × ShutdownHandle) :=
  if p.pull_attributes.isEmpty then
    Except.error ("assertion failed: pull_attributes is empty")
  else
    match buildStreams domain pullAllStream p.pull_attributes with
    | Except.error e => Except.error e
    | Except.ok streams =>
      Except.ok
        ({ vars := [], rows := (streams.map Prod.fst).flatten, tuplesShutdown := [] },
         streams.map Prod.snd)

/-- Translation of `Pull::implement` (`pull.rs` lines 246-283) as a
function of the declared variables and the already-compiled results of
its paths (each path's relation and the shutdown handle its compilation
returned; all paths share one scope and Domain).  Per path the shutdown
of the compilation and of the `tuples` call are merged in iteration
order, and the row streams are concatenated with no join between
paths. -/
def Pull.implement (vars : List Var)
    (pathResults : List (ImplementedRel × ShutdownHandle)) :
    ImplementedRel × ShutdownHandle :=
  let shutdown := pathResults.foldl
    (fun acc pr => acc ++ pr.2 ++ pr.1.tuplesShutdown) []
  let tuples := (pathResults.map (fun pr => pr.1.rows)).flatten
  ({ vars := vars, rows := tuples, tuplesShutdown := [] }, shutdown)

/-- True exactly when the modelled `implement` aborts the process. -/
def isFatal (r : Except String (ImplementedRel × ShutdownHandle)) : Bool :=
  match r with
  | Except.error _ => true
  | Except.ok _ => false

/-- Modelled from the spec: the `Dependencies` aggregate of the plan
contract, a multiset of required attributes (summed with multiplicity
across sub-plans); the type lives outside `src/`. -/
abbrev Dependencies : Type := Multiset Aid

/-- Modelled from the spec: `Dependencies::attribute`, the dependency
set of one attribute. -/
def Dependencies.attribute (a : Aid) : Dependencies := {a}

/-- Plan trees as needed by `dependencies()`: the pull-family nodes over
an arbitrary base sub-plan with known dependencies (other plan-node
kinds are out of scope and contribute through `base`). -/
inductive Plan where
  | base : Dependencies → Plan
  | pullLevel : List Var → Plan → Var → List Aid → List Aid → Bool → Plan
  | pull : List Var → List Plan → Plan
  | pullAll : List Var → List Aid → Plan

/-- Translation of the `dependencies` implementations (`pull.rs` lines
83-92, 242-244 and 299-305): pure, total aggregation of attribute
dependencies with multiplicity. -/
def Plan.dependencies : Plan → Dependencies
  | Plan.base deps => deps
  | Plan.pullLevel _ sub _ pullAttrs _ _ =>
    sub.dependencies + (pullAttrs.map Dependencies.attribute).sum
  | Plan.pull _ paths => (paths.attach.map (fun x => x.1.dependencies)).sum
  | Plan.pullAll _ pullAttrs => (pullAttrs.map Dependencies.attribute).sum
termination_by p => sizeOf p
decreasing_by
  all_goals simp_wf
  · simp [Nat.lt_succ_iff]; omega
  · have := List.sizeOf_lt_of_mem x.2
    omega

theorem buildStreams_error_iff (domain : Domain)
    (mk : Aid → ProposeTrace → List RowEntry) (attrs : List Aid) :
    (∃ e, buildStreams domain mk attrs = Except.error e) ↔
      ∃ a ∈ attrs, domain a = none := by
  induction attrs with
  | nil => simp [buildStreams]
  | cons a rest ih =>
    cases hda : domain a with
    | none =>
      simp only [buildStreams, hda]
      exact ⟨fun _ => ⟨a, by simp, hda⟩, fun _ => ⟨"attribute " ++ a ++ " does not exist", rfl⟩⟩
    | some trace =>
      simp only [buildStreams, hda]
      cases hrec : buildStreams domain mk rest with
      | error e =>
        constructor
        · intro _
          obtain ⟨b, hb, hnone⟩ := ih.mp ⟨e, hrec⟩
          exact ⟨b, by simp [hb], hnone⟩
        · intro _
          exact ⟨e, rfl⟩
      | ok tail =>
        constructor
        · intro ⟨e, he⟩
          exact absurd he (by simp)
        · intro ⟨b, hb, hnone⟩
          rcases List.mem_cons.mp hb with hba | hbr
          · rw [hba] at hnone
            rw [hnone] at hda
            exact absurd hda (by simp)
          · obtain ⟨e, he⟩ := ih.mpr ⟨b, hbr, hnone⟩
            rw [he] at hrec
            exact absurd hrec (by simp)

theorem buildStreams_ok_mem (domain : Domain)
    (mk : Aid → ProposeTrace → List RowEntry) (attrs : List Aid)
    (l : List (List RowEntry × Nat))
    (h : buildStreams domain mk attrs = Except.ok l) :
    ∀ x, x ∈ l ↔ ∃ a ∈ attrs, ∃ trace, domain a = some trace ∧
      x = (mk a trace, trace.shutdownButton) := by
  induction attrs generalizing l with
  | nil =>
    simp only [buildStreams, Except.ok.injEq] at h
    simp [← h]
  | cons a rest ih =>
    cases hda : domain a with
    | none => rw [buildStreams, hda] at h; exact absurd h (by simp)
    | some trace =>
      rw [buildStreams, hda] at h
      cases hrec : buildStreams domain mk rest with
      | error e => rw [hrec] at h; exact absurd h (by simp)
      | ok tail =>
        rw [hrec] at h
        simp only [Except.ok.injEq] at h
        intro x
        rw [← h]
        constructor
        · intro hx
          rcases List.mem_cons.mp hx with hx1 | hx2
          · exact ⟨a, by simp, trace, hda, hx1⟩
          · obtain ⟨b, hb, tr, htr, hxeq⟩ := (ih tail hrec x).mp hx2
            exact ⟨b, by simp [hb], tr, htr, hxeq⟩
        · intro ⟨b, hb, tr, htr, hxeq⟩
          rcases List.mem_cons.mp hb with hba | hbr
          · subst hba
            rw [hda] at htr
            simp only [Option.some.injEq] at htr
            subst htr
            rw [hxeq]
            exact List.mem_cons.mpr (Or.inl rfl)
          · exact List.mem_cons.mpr (Or.inr ((ih tail hrec x).mpr ⟨b, hbr, tr, htr, hxeq⟩))

theorem buildStreams_isOk (domain : Domain)
    (mk : Aid → ProposeTrace → List RowEntry) (attrs : List Aid)
    (hall : ∀ a ∈ attrs, (domain a).isSome) :
    ∃ l, buildStreams domain mk attrs = Except.ok l := by
  induction attrs with
  | nil => exact ⟨[], rfl⟩
  | cons a rest ih =>
    cases hda : domain a with
    | none =>
      have := hall a (by simp)
      rw [hda] at this
      exact absurd this (by simp)
    | some trace =>
      obtain ⟨tail, htail⟩ := ih (fun b hb => hall b (by simp [hb]))
      refine ⟨(mk a trace, trace.shutdownButton) :: tail, ?_⟩
      rw [buildStreams, hda, htail]

/-- C8: `dependencies` is total (a Lean function, it cannot fail) and is
pure aggregation: a `PullLevel` contributes its sub-plan's dependencies
plus one attribute dependency per element of `pull_attributes`, a `Pull`
the multiset sum over its paths, a `PullAll` the sum of attribute
dependencies over its `pull_attributes` — all summed with
multiplicity. -/
theorem dependencies_spec :
    (∀ (vs : List Var) (sub : Plan) (pv : Var) (pullAttrs pathAttrs : List Aid)
        (card : Bool),
      (Plan.pullLevel vs sub pv pullAttrs pathAttrs card).dependencies =
        sub.dependencies + (pullAttrs.map Dependencies.attribute).sum)
  ∧ (∀ (vs : List Var) (paths : List Plan),
      (Plan.pull vs paths).dependencies = (paths.map Plan.dependencies).sum)
  ∧ (∀ (vs : List Var) (pullAttrs : List Aid),
      (Plan.pullAll vs pullAttrs).dependencies =
        (pullAttrs.map Dependencies.attribute).sum) := by
  refine ⟨fun _ _ _ _ _ _ => by rw [Plan.dependencies], fun vs paths => ?_,
    fun _ _ => by rw [Plan.dependencies]⟩
  rw [Plan.dependencies]
  congr 1
  exact List.attach_map_val paths Plan.dependencies

/-- C2 (amended): `PullLevel::implement` aborts the process exactly when
`pull_attributes` is non-empty AND (the compiled sub-plan does not bind
`pull_variable`, or some attribute of `pull_attributes` is missing from
the Attribute Index).  With empty `pull_attributes` the leaf branch is
taken before `pull_variable` is ever resolved, so compilation succeeds
even when `pull_variable` is unbound — the original claim's
"exactly when unbound or missing" is therefore too strong. -/
theorem pullLevel_fatal_iff (p : PullLevel) (domain : Domain)
    (input : ImplementedRel) (sh : ShutdownHandle) :
    isFatal (p.implement domain input sh) = true ↔
      p.pull_attributes ≠ [] ∧
        (bindsVar input.vars p.pull_variable = none ∨
          ∃ a ∈ p.pull_attributes, domain a = none) := by
  rw [PullLevel.implement]
  by_cases hpe : p.pull_attributes.isEmpty
  · have hnil : p.pull_attributes = [] := by simpa using hpe
    by_cases hpa : p.path_attributes.isEmpty <;>
      simp [hpe, hpa, isFatal, hnil]
  · have hne : p.pull_attributes ≠ [] := by simpa using hpe
    rw [if_neg hpe]
    cases hb : bindsVar input.vars p.pull_variable with
    | none => simp [isFatal, hne]
    | some eOffset =>
      cases hbs : buildStreams domain
          (fun a trace =>
            joinCore (input.rows.map (keyRow eOffset)) (importProposeStream trace)
              (pullJoinRow p.path_attributes p.cardinality_many a))
          p.pull_attributes with
      | error e =>
        simp only [hbs, isFatal]
        constructor
        · intro _
          exact ⟨hne, Or.inr ((buildStreams_error_iff _ _ _).mp ⟨e, hbs⟩)⟩
        · intro _
          trivial
      | ok streams =>
        simp only [hbs, isFatal]
        constructor
        · intro hfalse
          exact absurd hfalse (by decide)
        · intro ⟨_, hcond⟩
          rcases hcond with hbnone | hmiss
          · exact absurd hbnone (by simp [hb])
          · obtain ⟨e, he⟩ := (buildStreams_error_iff domain
                (fun a trace =>
                  joinCore (input.rows.map (keyRow eOffset)) (importProposeStream trace)
                    (pullJoinRow p.path_attributes p.cardinality_many a))
                p.pull_attributes).mpr hmiss
            exact absurd he (by simp [hbs])

/-- C2 counterexample: a `PullLevel` whose sub-plan does not bind
`pull_variable` but whose `pull_attributes` is empty compiles
successfully, while the claim predicts a fatal failure. -/
theorem pullLevel_fatal_counterexample :
    bindsVar ([] : List Var) 0 = none
  ∧ isFatal (PullLevel.implement ⟨[], 0, [], [], false⟩ (fun _ => none)
      ⟨[], [], []⟩ []) = false := ⟨rfl, rfl⟩

/-- C2 witness: the amended characterization applied at a concrete
missing attribute. -/
theorem pullLevel_fatal_iff_witness :
    isFatal (PullLevel.implement ⟨[], 0, ["a"], [], false⟩ (fun _ => none)
      ⟨[0], [], []⟩ []) = true :=
  (pullLevel_fatal_iff ⟨[], 0, ["a"], [], false⟩ (fun _ => none)
    ⟨[0], [], []⟩ []).mpr ⟨by decide, Or.inr ⟨"a", by decide, rfl⟩⟩

/-- C9: with empty `pull_attributes` the Attribute Index is never
consulted (the result is the same under any Domain); if
`path_attributes` is also empty the sub-plan's compiled relation and
shutdown handle are returned unchanged, and otherwise the result is a
new collection whose entries are exactly the input entries with the row
interleaved with `path_attributes`, carrying the node's variables. -/
theorem pullLevel_leaf_spec (p : PullLevel) (domain : Domain)
    (input : ImplementedRel) (sh : ShutdownHandle)
    (h : p.pull_attributes = []) :
    (∀ domain2 : Domain, p.implement domain2 input sh = p.implement domain input sh)
  ∧ (p.path_attributes = [] → p.implement domain input sh = Except.ok (input, sh))
  ∧ (p.path_attributes ≠ [] →
      p.implement domain input sh = Except.ok
        ({ vars := p.vars
           rows := input.rows.map (fun entry =>
             (entry.1.bind (fun row => interleave row p.path_attributes), entry.2))
           tuplesShutdown := [] },
         sh ++ input.tuplesShutdown)) := by
  have hpe : p.pull_attributes.isEmpty = true := by simp [h]
  refine ⟨?_, ?_, ?_⟩
  · intro domain2
    rw [PullLevel.implement, PullLevel.implement, if_pos hpe, if_pos hpe]
  · intro hpa
    rw [PullLevel.implement, if_pos hpe, if_pos (by simp [hpa])]
  · intro hpa
    rw [PullLevel.implement, if_pos hpe, if_neg (by simpa using hpa)]

/-- C9 witness: the leaf branches applied at concrete inputs. -/
theorem pullLevel_leaf_spec_witness :
    PullLevel.implement ⟨[], 0, [], [], false⟩ (fun _ => none)
      ⟨[], [(some [Value.Eid 5], (0, 0), 1)], [7]⟩ [9] =
      Except.ok (⟨[], [(some [Value.Eid 5], (0, 0), 1)], [7]⟩, [9])
  ∧ PullLevel.implement ⟨[2], 0, [], ["a"], false⟩ (fun _ => none)
      ⟨[0], [(some [Value.Eid 5], (0, 0), 1)], [7]⟩ [9] =
      Except.ok
        (⟨[2], [(some [Value.Eid 5, Value.Aid ("a")], (0, 0), 1)], []⟩, [9, 7]) := by
  constructor
  · exact (pullLevel_leaf_spec ⟨[], 0, [], [], false⟩ (fun _ => none)
      ⟨[], [(some [Value.Eid 5], (0, 0), 1)], [7]⟩ [9] rfl).2.1 rfl
  · have := (pullLevel_leaf_spec ⟨[2], 0, [], ["a"], false⟩ (fun _ => none)
      ⟨[0], [(some [Value.Eid 5], (0, 0), 1)], [7]⟩ [9] rfl).2.2 (by decide)
    rw [this]
    rfl

/-- C10: a `PullLevel` compiled with non-empty `pull_attributes` and any
`PullAll` return a relation with an empty variable list, on which
`binds` resolves no variable; the leaf branch with empty
`pull_attributes` and non-empty `path_attributes` is the one that
propagates the node's declared variables to the output relation. -/
theorem pull_output_variables_spec :
    (∀ (p : PullLevel) (domain : Domain) (input : ImplementedRel)
        (sh outSh : ShutdownHandle) (rel : ImplementedRel),
      p.pull_attributes ≠ [] →
      p.implement domain input sh = Except.ok (rel, outSh) →
      rel.vars = [] ∧ ∀ v : Var, bindsVar rel.vars v = none)
  ∧ (∀ (p : PullAll) (domain : Domain) (outSh : ShutdownHandle)
        (rel : ImplementedRel),
      p.implement domain = Except.ok (rel, outSh) →
      rel.vars = [] ∧ ∀ v : Var, bindsVar rel.vars v = none)
  ∧ (∀ (p : PullLevel) (domain : Domain) (input : ImplementedRel)
        (sh outSh : ShutdownHandle) (rel : ImplementedRel),
      p.pull_attributes = [] → p.path_attributes ≠ [] →
      p.implement domain input sh = Except.ok (rel, outSh) →
      rel.vars = p.vars) := by
  refine ⟨?_, ?_, ?_⟩
  · intro p domain input sh outSh rel hne heq
    rw [PullLevel.implement, if_neg (by simpa using hne)] at heq
    cases hb : bindsVar input.vars p.pull_variable with
    | none => rw [hb] at heq; simp at heq
    | some eOffset =>
      rw [hb] at heq
      cases hbs : buildStreams domain
          (fun a trace =>
            joinCore (input.rows.map (keyRow eOffset)) (importProposeStream trace)
              (pullJoinRow p.path_attributes p.cardinality_many a))
          p.pull_attributes with
      | error e => simp [hbs] at heq
      | ok streams =>
        simp only [hbs, Except.ok.injEq, Prod.mk.injEq] at heq
        have hvars : rel.vars = [] := by rw [← heq.1]
        exact ⟨hvars, fun v => by simp [hvars, bindsVar]⟩
  · intro p domain outSh rel heq
    rw [PullAll.implement] at heq
    by_cases hpe : p.pull_attributes.isEmpty
    · rw [if_pos hpe] at heq
      exact absurd heq (by simp)
    · rw [if_neg hpe] at heq
      cases hbs : buildStreams domain pullAllStream p.pull_attributes with
      | error e => simp [hbs] at heq
      | ok streams =>
        simp only [hbs, Except.ok.injEq, Prod.mk.injEq] at heq
        have hvars : rel.vars = [] := by rw [← heq.1]
        exact ⟨hvars, fun v => by simp [hvars, bindsVar]⟩
  · intro p domain input sh outSh rel hnil hpa heq
    rw [PullLevel.implement, if_pos (by simp [hnil]),
      if_neg (by simpa using hpa)] at heq
    simp only [Except.ok.injEq, Prod.mk.injEq] at heq
    rw [← heq.1]

/-- C10 witness: the three clauses applied at concrete inputs. -/
theorem pull_output_variables_spec_witness :
    bindsVar ([] : List Var) 3 = none
  ∧ (⟨[2], [(some [Value.Eid 5, Value.Aid ("a")], (0, 0), 1)], []⟩ :
      ImplementedRel).vars = [2] := by
  constructor
  · have := pull_output_variables_spec.2.1 ⟨[], ["b"]⟩
      (fun _ => some ⟨[], [], 4⟩) [4]
      ⟨[], [], []⟩ (by rfl)
    exact this.2 3
  · have := pull_output_variables_spec.2.2 ⟨[2], 0, [], ["a"], false⟩
      (fun _ => none) ⟨[0], [(some [Value.Eid 5], (0, 0), 1)], [7]⟩ [9] [9, 7]
      ⟨[2], [(some [Value.Eid 5, Value.Aid ("a")], (0, 0), 1)], []⟩
      rfl (by decide) (by rfl)
    rw [this]

theorem foldl_shutdown_eq_flatten
    (l : List (ImplementedRel × ShutdownHandle)) :
    ∀ acc : ShutdownHandle,
      l.foldl (fun acc pr => acc ++ pr.2 ++ pr.1.tuplesShutdown) acc =
        acc ++ (l.map (fun pr => pr.2 ++ pr.1.tuplesShutdown)).flatten := by
  induction l with
  | nil => intro acc; simp
  | cons pr rest ih =>
    intro acc
    simp only [List.foldl_cons, List.map_cons, List.flatten_cons]
    rw [ih]
    simp [List.append_assoc]

/-- C6: `Pull::implement` returns a relation carrying the node's
declared variables whose row stream is the concatenation of the path
relations' row streams (an entry is in the output exactly when it is in
some path's stream — no join between paths), together with the merge of
every sub-compilation's shutdown handle (each path's `implement`
shutdown and the shutdown of materializing it with `tuples`). -/
theorem pull_implement_spec (vs : List Var)
    (pathResults : List (ImplementedRel × ShutdownHandle)) :
    (Pull.implement vs pathResults).1.vars = vs
  ∧ (Pull.implement vs pathResults).1.rows =
      (pathResults.map (fun pr => pr.1.rows)).flatten
  ∧ (∀ x, x ∈ (Pull.implement vs pathResults).1.rows ↔
      ∃ pr ∈ pathResults, x ∈ pr.1.rows)
  ∧ (Pull.implement vs pathResults).2 =
      (pathResults.map (fun pr => pr.2 ++ pr.1.tuplesShutdown)).flatten := by
  refine ⟨rfl, rfl, ?_, ?_⟩
  · intro x
    simp [Pull.implement, List.mem_flatten]
  · rw [Pull.implement]
    exact foldl_shutdown_eq_flatten pathResults []

/-- C7: `PullAll::implement` aborts when `pull_attributes` is empty;
otherwise, when every attribute is present in the Attribute Index, it
succeeds and its output rows are exactly (membership-wise, order
independent) one row `[entity, attribute-label, value]` per entity/value
pair of each attribute's frontier-bounded snapshot — no join against any
input relation, no presence-row synthesis. -/
theorem pullAll_spec :
    (∀ (p : PullAll) (domain : Domain),
      p.pull_attributes = [] → isFatal (p.implement domain) = true)
  ∧ (∀ (p : PullAll) (domain : Domain),
      p.pull_attributes ≠ [] →
      (∀ a ∈ p.pull_attributes, (domain a).isSome) →
      ∃ rel outSh, p.implement domain = Except.ok (rel, outSh) ∧
        ∀ x : RowEntry, x ∈ rel.rows ↔
          ∃ a ∈ p.pull_attributes, ∃ trace, domain a = some trace ∧
            ∃ src ∈ trace.rows,
              x = (some [src.1.1, Aid.intoValue a, src.1.2],
                   (advanceBy src.2.1 trace.frontier, 0), src.2.2)) := by
  constructor
  · intro p domain h
    rw [PullAll.implement, if_pos (by simp [h])]
    rfl
  · intro p domain hne hall
    obtain ⟨streams, hbs⟩ := buildStreams_isOk domain pullAllStream p.pull_attributes hall
    refine ⟨{ vars := [], rows := (streams.map Prod.fst).flatten, tuplesShutdown := [] },
      streams.map Prod.snd, ?_, ?_⟩
    · rw [PullAll.implement, if_neg (by simpa using hne), hbs]
    · intro x
      simp only [List.mem_flatten, List.mem_map]
      constructor
      · rintro ⟨s, ⟨pair, hpair, hs⟩, hx⟩
        obtain ⟨a, ha, tr, htr, hpeq⟩ :=
          (buildStreams_ok_mem domain pullAllStream p.pull_attributes streams hbs pair).mp
            hpair
        rw [hpeq] at hs
        rw [← hs] at hx
        simp only [pullAllStream, importProposeStream, List.map_map, List.mem_map,
          Function.comp] at hx
        obtain ⟨src, hsrc, hxeq⟩ := hx
        exact ⟨a, ha, tr, htr, src, hsrc, hxeq.symm⟩
      · rintro ⟨a, ha, tr, htr, src, hsrc, hxeq⟩
        refine ⟨pullAllStream a tr,
          ⟨(pullAllStream a tr, tr.shutdownButton), ?_, rfl⟩, ?_⟩
        · exact (buildStreams_ok_mem domain pullAllStream p.pull_attributes streams
            hbs _).mpr ⟨a, ha, tr, htr, rfl⟩
        · simp only [pullAllStream, importProposeStream, List.map_map, List.mem_map,
            Function.comp]
          exact ⟨src, hsrc, hxeq.symm⟩

/-- C7 witness: the two clauses applied at concrete inputs. -/
theorem pullAll_spec_witness :
    isFatal (PullAll.implement ⟨[], []⟩ (fun _ => none)) = true
  ∧ isFatal (PullAll.implement ⟨[], ["a1"]⟩
      (fun _ => some ⟨[0], [((Value.Eid 1, Value.Str ("v1")), 0, 1)], 5⟩)) = false := by
  constructor
  · exact pullAll_spec.1 ⟨[], []⟩ (fun _ => none) rfl
  · obtain ⟨rel, outSh, heq, -⟩ := pullAll_spec.2 ⟨[], ["a1"]⟩
      (fun _ => some ⟨[0], [((Value.Eid 1, Value.Str ("v1")), 0, 1)], 5⟩)
      (by decide) (by intro a _; rfl)
    rw [heq]
    rfl

theorem foldl_min_max_of_le (t : Nat) :
    ∀ (fs : List Nat) (acc : Nat), (∀ f ∈ fs, t ≤ f) →
      fs.foldl (fun acc x => min acc (max t x)) acc =
        fs.foldl (fun acc x => min acc x) acc := by
  intro fs
  induction fs with
  | nil => intro acc _; rfl
  | cons f fs ih =>
    intro acc h
    simp only [List.foldl_cons]
    rw [Nat.max_eq_right (h f (by simp))]
    exact ih (min acc f) (fun g hg => h g (by simp [hg]))

/-- C5: the stream imported from an attribute snapshot enters the
nested scope with every source timestamp advanced to the frontier
captured at import time, paired with iteration counter 0 (first
clause, the `enter_at` closure of both `PullLevel::implement` and
`PullAll::implement`); any two source times not beyond a non-empty
captured frontier are re-stamped to the same time, pinning lookups to a
single cut (second clause); and every row `PullAll::implement` emits
carries such a re-stamped timestamp of some snapshot entry (third
clause). -/
theorem frontier_restamp_spec :
    (∀ trace : ProposeTrace,
      importProposeStream trace =
        trace.rows.map (fun src =>
          (src.1, (advanceBy src.2.1 trace.frontier, 0), src.2.2)))
  ∧ (∀ (trace : ProposeTrace) (t1 t2 : Nat), trace.frontier ≠ [] →
      (∀ f ∈ trace.frontier, t1 ≤ f) → (∀ f ∈ trace.frontier, t2 ≤ f) →
      advanceBy t1 trace.frontier = advanceBy t2 trace.frontier)
  ∧ (∀ (p : PullAll) (domain : Domain) (rel : ImplementedRel)
        (outSh : ShutdownHandle),
      p.implement domain = Except.ok (rel, outSh) →
      ∀ x ∈ rel.rows, ∃ a ∈ p.pull_attributes, ∃ trace, domain a = some trace ∧
        ∃ src ∈ trace.rows,
          x.2 = ((advanceBy src.2.1 trace.frontier, 0), src.2.2)) := by
  refine ⟨fun trace => rfl, ?_, ?_⟩
  · intro trace t1 t2 hne h1 h2
    cases hF : trace.frontier with
    | nil => exact absurd hF hne
    | cons f fs =>
      rw [hF] at h1 h2
      show (match f :: fs with
        | [] => t1
        | f :: fs => fs.foldl (fun acc x => min acc (max t1 x)) (max t1 f)) =
        (match f :: fs with
        | [] => t2
        | f :: fs => fs.foldl (fun acc x => min acc (max t2 x)) (max t2 f))
      simp only
      rw [Nat.max_eq_right (h1 f (by simp)), Nat.max_eq_right (h2 f (by simp))]
      rw [foldl_min_max_of_le t1 fs f (fun g hg => h1 g (by simp [hg])),
        foldl_min_max_of_le t2 fs f (fun g hg => h2 g (by simp [hg]))]
  · intro p domain rel outSh heq x hx
    rw [PullAll.implement] at heq
    by_cases hpe : p.pull_attributes.isEmpty
    · rw [if_pos hpe] at heq
      exact absurd heq (by simp)
    · rw [if_neg hpe] at heq
      cases hbs : buildStreams domain pullAllStream p.pull_attributes with
      | error e => simp [hbs] at heq
      | ok streams =>
        simp only [hbs, Except.ok.injEq, Prod.mk.injEq] at heq
        rw [← heq.1] at hx
        simp only [List.mem_flatten, List.mem_map] at hx
        obtain ⟨s, ⟨pair, hpair, hs⟩, hxs⟩ := hx
        obtain ⟨a, ha, tr, htr, hpeq⟩ :=
          (buildStreams_ok_mem domain pullAllStream p.pull_attributes streams hbs
            pair).mp hpair
        rw [hpeq] at hs
        rw [← hs] at hxs
        simp only [pullAllStream, importProposeStream, List.map_map, List.mem_map,
          Function.comp] at hxs
        obtain ⟨src, hsrc, hxeq⟩ := hxs
        exact ⟨a, ha, tr, htr, src, hsrc, by rw [← hxeq]⟩

/-- C5 witness: the single-cut clause applied at concrete times and the
first clause at a concrete snapshot. -/
theorem frontier_restamp_spec_witness :
    advanceBy 0 [3] = advanceBy 2 [3]
  ∧ importProposeStream ⟨[3], [((Value.Eid 1, Value.Str ("v")), 0, 1)], 4⟩ =
      [((Value.Eid 1, Value.Str ("v")), (3, 0), 1)] := by
  constructor
  · exact frontier_restamp_spec.2.1 ⟨[3], [], 0⟩ 0 2 (by decide) (by decide) (by decide)
  · rw [frontier_restamp_spec.1 ⟨[3], [((Value.Eid 1, Value.Str ("v")), 0, 1)], 4⟩]
    rfl

theorem interleave_some_length (values : List Value) (constants : List Aid)
    (r : List Value) (h : interleave values constants = some r)
    (hv : values ≠ []) : r.length = values.length + constants.length := by
  by_cases hc : constants.isEmpty
  · rw [interleave, if_pos (by simp [hc])] at h
    have hnil : constants = [] := by simpa using hc
    simp only [Option.some.injEq] at h
    simp [← h, hnil]
  · rw [interleave, if_neg (by simp [hv, hc])] at h
    exact interleaveLoop_length values constants _ _ _ _ _ h

theorem interleave_nil_values (constants : List Aid) :
    interleave [] constants = some [] := by
  rw [interleave]
  simp

theorem pullJoinRow_length_true (pathAttributes : List Aid) (card : Bool) (a : Aid)
    (path : List Value) (v : Value) (row : List Value)
    (hbranch : (pathAttributes.isEmpty || card) = true)
    (h : pullJoinRow pathAttributes card a path v = some row)
    (hp : path ≠ []) :
    row.length = path.length + pathAttributes.length + 2 := by
  rw [pullJoinRow, if_pos hbranch] at h
  cases hi : interleave path pathAttributes with
  | none => rw [hi] at h; exact absurd h (by simp)
  | some r =>
    rw [hi] at h
    simp only [Option.map_some', Option.some.injEq] at h
    have hr := interleave_some_length path pathAttributes r hi hp
    simp [← h, hr]

theorem pullJoinRow_length_false (pathAttributes : List Aid) (card : Bool) (a : Aid)
    (path : List Value) (v : Value) (row : List Value)
    (hbranch : (pathAttributes.isEmpty || card) = false)
    (h : pullJoinRow pathAttributes card a path v = some row) :
    row.length = path.length + pathAttributes.length + 1 := by
  rw [pullJoinRow, if_neg (by simp [hbranch])] at h
  cases hi : interleave path pathAttributes with
  | none => rw [hi] at h; exact absurd h (by simp)
  | some r =>
    rw [hi] at h
    simp only [Option.some_bind] at h
    by_cases hre : r.isEmpty
    · rw [if_pos hre] at h
      exact absurd h (by simp)
    · rw [if_neg hre] at h
      simp only [Option.some.injEq] at h
      have hp : path ≠ [] := by
        intro hnil
        rw [hnil, interleave_nil_values] at hi
        simp only [Option.some.injEq] at hi
        rw [← hi] at hre
        exact hre rfl
      have hr := interleave_some_length path pathAttributes r hi hp
      have hrne : r.length ≠ 0 := by
        intro h0
        exact hre (by simpa using List.eq_nil_of_length_eq_zero h0)
      have : row.length = r.length - 1 + 2 := by simp [← h]
      omega

theorem dbIdRow_length (pathAttributes : List Aid) (path : List Value)
    (row : List Value) (h : dbIdRow pathAttributes path = some row) :
    row.length = path.length + pathAttributes.length + 1 := by
  rw [dbIdRow] at h
  cases hi : interleave path pathAttributes with
  | none => rw [hi] at h; exact absurd h (by simp)
  | some r =>
    rw [hi] at h
    simp only [Option.some_bind] at h
    cases hl : r.getLast? with
    | none => rw [hl] at h; exact absurd h (by simp)
    | some eid =>
      rw [hl] at h
      simp only [Option.some.injEq] at h
      have hrne : r ≠ [] := by
        intro hnil
        rw [hnil] at hl
        exact absurd hl (by simp)
      have hp : path ≠ [] := by
        intro hnil
        rw [hnil, interleave_nil_values] at hi
        simp only [Option.some.injEq] at hi
        exact hrne hi.symm
      have hr := interleave_some_length path pathAttributes r hi hp
      have hrpos : r.length ≠ 0 := fun h0 => hrne (List.eq_nil_of_length_eq_zero h0)
      have : row.length = r.length - 1 + 2 := by simp [← h]
      omega

theorem mem_joinCore (ePath : List (Option (Value × List Value) × NestedTime × Int))
    (eV : List ((Value × Value) × NestedTime × Int))
    (f : List Value → Value → Option (List Value)) (x : RowEntry)
    (hx : x ∈ joinCore ePath eV f) :
    (∃ pe ∈ ePath, pe.1 = none ∧ x = (none, pe.2))
  ∨ (∃ pe ∈ ePath, ∃ e path, pe.1 = some (e, path) ∧
      ∃ ve ∈ eV, ve.1.1 = e ∧
        x = (f path ve.1.2, joinTime pe.2.1 ve.2.1, pe.2.2 * ve.2.2)) := by
  simp only [joinCore, List.mem_flatMap] at hx
  obtain ⟨pe, hpe, hxpe⟩ := hx
  cases hp1 : pe.1 with
  | none =>
    rw [hp1] at hxpe
    simp only [List.mem_singleton] at hxpe
    exact Or.inl ⟨pe, hpe, hp1, hxpe⟩
  | some ep =>
    rw [hp1] at hxpe
    obtain ⟨e, path⟩ := ep
    simp only [List.mem_flatMap] at hxpe
    obtain ⟨ve, hve, hxve⟩ := hxpe
    by_cases hee : ve.1.1 = e
    · rw [if_pos hee] at hxve
      simp only [List.mem_singleton] at hxve
      exact Or.inr ⟨pe, hpe, e, path, hp1, ve, hve, hee, hxve⟩
    · rw [if_neg hee] at hxve
      simp at hxve

theorem keyRow_eq_some (eOffset : Nat) (entry : RowEntry) (e : Value)
    (path : List Value) (h : (keyRow eOffset entry).1 = some (e, path)) :
    entry.1 = some path ∧ path[eOffset]? = some e := by
  cases h1 : entry.1 with
  | none => simp [keyRow, h1] at h
  | some row =>
    simp only [keyRow, h1, Option.some_bind] at h
    cases h2 : row[eOffset]? with
    | none => rw [h2] at h; exact absurd h (by simp)
    | some e2 =>
      rw [h2] at h
      simp only [Option.map_some', Option.some.injEq, Prod.mk.injEq] at h
      refine ⟨?_, ?_⟩
      · rw [h.2]
      · rw [h.2] at h2
        rw [h2, h.1]

/-- C3 (amended): for a `PullLevel` with non-empty `pull_attributes`
over a sub-plan whose paths all have length `k`: with
`cardinality_many = false` and non-empty `path_attributes` every emitted
row has exactly `k + path_attributes.length - 1 + 2` elements (the
interleaved path minus its last element, plus label, plus value; the
presence rows have the same shape); with `cardinality_many = true` every
emitted row has `k + path_attributes.length + 2` elements.  The original
claim omitted the `path_attributes.length` term contributed by the
interleaving of the path with its labels. -/
theorem pullLevel_row_length_spec (p : PullLevel) (domain : Domain)
    (input : ImplementedRel) (sh outSh : ShutdownHandle) (rel : ImplementedRel)
    (k : Nat)
    (hne : p.pull_attributes ≠ [])
    (hok : p.implement domain input sh = Except.ok (rel, outSh))
    (hlen : ∀ entry ∈ input.rows, ∀ row, entry.1 = some row → row.length = k) :
    (p.cardinality_many = false → p.path_attributes ≠ [] →
      ∀ entry ∈ rel.rows, ∀ row : List Value, entry.1 = some row →
        row.length = k + p.path_attributes.length + 1)
  ∧ (p.cardinality_many = true →
      ∀ entry ∈ rel.rows, ∀ row : List Value, entry.1 = some row →
        row.length = k + p.path_attributes.length + 2) := by
  rw [PullLevel.implement, if_neg (by simpa using hne)] at hok
  cases hb : bindsVar input.vars p.pull_variable with
  | none => rw [hb] at hok; simp at hok
  | some eOffset =>
    rw [hb] at hok
    cases hbs : buildStreams domain
        (fun a trace =>
          joinCore (input.rows.map (keyRow eOffset)) (importProposeStream trace)
            (pullJoinRow p.path_attributes p.cardinality_many a))
        p.pull_attributes with
    | error e => simp [hbs] at hok
    | ok streams =>
      simp only [hbs, Except.ok.injEq, Prod.mk.injEq] at hok
      have hrel := hok.1
      have hstream : ∀ x : RowEntry, x ∈ (streams.map Prod.fst).flatten →
          ∀ row : List Value, x.1 = some row →
          ∃ (a : Aid) (path : List Value) (v : Value),
            path.length = k ∧ path ≠ [] ∧
            pullJoinRow p.path_attributes p.cardinality_many a path v = some row := by
        intro x hx row hxr
        simp only [List.mem_flatten, List.mem_map] at hx
        obtain ⟨s, ⟨pair, hpair, hs⟩, hxs⟩ := hx
        obtain ⟨a, ha, tr, htr, hpeq⟩ :=
          (buildStreams_ok_mem domain _ p.pull_attributes streams hbs pair).mp hpair
        rw [hpeq] at hs
        rw [← hs] at hxs
        rcases mem_joinCore _ _ _ x hxs with
          ⟨pe, hpe, hnone, hxeq⟩ | ⟨pe, hpe, e, path, hsome, ve, hve, hee, hxeq⟩
        · rw [hxeq] at hxr
          simp at hxr
        · rw [hxeq] at hxr
          simp only at hxr
          obtain ⟨ie, hie, hkr⟩ := List.mem_map.mp hpe
          have hk := keyRow_eq_some eOffset ie e path (by rw [hkr]; exact hsome)
          have hplen : path.length = k := hlen ie hie path hk.1
          have hpne : path ≠ [] := by
            intro hnil
            rw [hnil] at hk
            simp at hk
          exact ⟨a, path, ve.1.2, hplen, hpne, hxr⟩
      constructor
      · intro hcard hpa entry hentry row hrow
        have hcond : (p.path_attributes.isEmpty || p.cardinality_many) = false := by
          simp [hcard, hpa]
        rw [← hrel] at hentry
        simp only [hcond, Bool.false_eq_true, if_false] at hentry
        rcases List.mem_append.mp hentry with hflat | hdb
        · obtain ⟨a, path, v, hplen, hpne, hpjr⟩ := hstream entry hflat row hrow
          have hl := pullJoinRow_length_false p.path_attributes p.cardinality_many
            a path v row hcond hpjr
          rw [hplen] at hl
          exact hl
        · simp only [List.mem_map] at hdb
          obtain ⟨ie, hie, hieq⟩ := hdb
          rw [← hieq] at hrow
          simp only at hrow
          cases hie1 : ie.1 with
          | none => rw [hie1] at hrow; simp at hrow
          | some path =>
            rw [hie1] at hrow
            simp only [Option.some_bind] at hrow
            have hl := dbIdRow_length p.path_attributes path row hrow
            have hplen := hlen ie hie path hie1
            rw [hplen] at hl
            exact hl
      · intro hcard entry hentry row hrow
        have hcond : (p.path_attributes.isEmpty || p.cardinality_many) = true := by
          simp [hcard]
        rw [← hrel] at hentry
        simp only [hcond, if_true] at hentry
        obtain ⟨a, path, v, hplen, hpne, hpjr⟩ := hstream entry hentry row hrow
        have hl := pullJoinRow_length_true p.path_attributes p.cardinality_many
          a path v row hcond hpjr hpne
        rw [hplen] at hl
        exact hl

/-- C3 counterexample: a path of length `k = 2` with one path attribute
and one pulled attribute, `cardinality_many = false`.  The emitted value
row `[e, path-label, pulled-label, value]` has 4 elements, not the
`k - 1 + 2 = 3` the claim predicts, because the interleaved path also
carries the path-attribute label. -/
theorem pullLevel_row_length_counterexample :
    PullLevel.implement ⟨[], 0, ["b"], ["a"], false⟩
      (fun a => if a = "b" then
        some ⟨[0], [((Value.Eid 1, Value.Str ("v")), 0, 1)], 5⟩ else none)
      ⟨[0, 1], [(some [Value.Eid 1, Value.Eid 2], (0, 0), 1)], []⟩ [] =
    Except.ok
      (⟨[],
        [(some [Value.Eid 1, Value.Aid ("a"), Value.Aid ("b"), Value.Str ("v")],
           (0, 0), 1),
         (some [Value.Eid 1, Value.Aid ("a"), Value.Aid ("db__id"), Value.Eid 2],
           (0, 0), 1)],
        []⟩,
       [5])
  ∧ ([Value.Eid 1, Value.Aid ("a"), Value.Aid ("b"), Value.Str ("v")] :
      List Value).length ≠ 2 - 1 + 2 :=
  ⟨rfl, by decide⟩

/-- C3 witness: the amended length law applied at the concrete inputs of
the counterexample, giving `k + path_attributes.length + 1 = 4`. -/
theorem pullLevel_row_length_spec_witness :
    ([Value.Eid 1, Value.Aid ("a"), Value.Aid ("b"), Value.Str ("v")] :
      List Value).length = 2 + (["a"] : List Aid).length + 1 := by
  have h := (pullLevel_row_length_spec ⟨[], 0, ["b"], ["a"], false⟩
      (fun a => if a = "b" then
        some ⟨[0], [((Value.Eid 1, Value.Str ("v")), 0, 1)], 5⟩ else none)
      ⟨[0, 1], [(some [Value.Eid 1, Value.Eid 2], (0, 0), 1)], []⟩ [] [5]
      ⟨[],
        [(some [Value.Eid 1, Value.Aid ("a"), Value.Aid ("b"), Value.Str ("v")],
           (0, 0), 1),
         (some [Value.Eid 1, Value.Aid ("a"), Value.Aid ("db__id"), Value.Eid 2],
           (0, 0), 1)],
        []⟩ 2
      (by decide) rfl ?_).1 rfl (by decide)
      (some [Value.Eid 1, Value.Aid ("a"), Value.Aid ("b"), Value.Str ("v")],
        (0, 0), 1)
      (List.mem_cons_self _ _)
      [Value.Eid 1, Value.Aid ("a"), Value.Aid ("b"), Value.Str ("v")] rfl
  · exact h
  · intro entry he row hr
    simp only [List.mem_singleton] at he
    rw [he] at hr
    simp only [Option.some.injEq] at hr
    rw [← hr]
    rfl

/-- C4 (amended): for a `PullLevel` with non-empty `pull_attributes`,
non-empty `path_attributes` and `cardinality_many = false`, every input
path of compatible length (`path_attributes.length ≤ k ≤
path_attributes.length + 1`, so that the interleaving is defined) yields
one presence row — the interleaved path with its last element removed
and replaced by the `db__id` marker followed by the removed element —
concatenated into the output after the per-attribute join streams, so
such a path produces at least one output row even when no pulled
attribute has a matching value.  The original claim omitted that the
presence rows are only built in the non-empty `pull_attributes` branch:
with empty `pull_attributes` the leaf branch emits no presence row. -/
theorem pullLevel_presence_row_spec (p : PullLevel) (domain : Domain)
    (input : ImplementedRel) (sh outSh : ShutdownHandle) (rel : ImplementedRel)
    (hpullne : p.pull_attributes ≠ [])
    (hpane : p.path_attributes ≠ [])
    (hcard : p.cardinality_many = false)
    (hok : p.implement domain input sh = Except.ok (rel, outSh)) :
    ∀ entry ∈ input.rows, ∀ path : List Value, entry.1 = some path →
      p.path_attributes.length ≤ path.length →
      path.length ≤ p.path_attributes.length + 1 →
      ∃ init last, interleave path p.path_attributes = some (init ++ [last]) ∧
        (some (init ++ [Value.Aid ("db__id"), last]), entry.2) ∈ rel.rows := by
  rw [PullLevel.implement, if_neg (by simpa using hpullne)] at hok
  cases hb : bindsVar input.vars p.pull_variable with
  | none => rw [hb] at hok; simp at hok
  | some eOffset =>
    rw [hb] at hok
    cases hbs : buildStreams domain
        (fun a trace =>
          joinCore (input.rows.map (keyRow eOffset)) (importProposeStream trace)
            (pullJoinRow p.path_attributes p.cardinality_many a))
        p.pull_attributes with
    | error e => simp [hbs] at hok
    | ok streams =>
      simp only [hbs, Except.ok.injEq, Prod.mk.injEq] at hok
      have hrel := hok.1
      intro entry hentry path hpath h1 h2
      have hpalen : p.path_attributes.length ≠ 0 :=
        fun h0 => hpane (List.eq_nil_of_length_eq_zero h0)
      have hpne : path ≠ [] := by
        intro hnil
        rw [hnil] at h1
        simp at h1
        exact hpane h1
      have hint := interleave_eq_zipInterleave path p.path_attributes hpne hpane h1 h2
      have hrlen := zipInterleave_length path p.path_attributes h1
      have hrne : zipInterleave path p.path_attributes ≠ [] := by
        intro h0
        rw [h0] at hrlen
        simp at hrlen
        omega
      refine ⟨(zipInterleave path p.path_attributes).dropLast,
        (zipInterleave path p.path_attributes).getLast hrne, ?_, ?_⟩
      · rw [hint]
        congr 1
        exact (List.dropLast_append_getLast hrne).symm
      · rw [← hrel]
        have hcond : (p.path_attributes.isEmpty || p.cardinality_many) = false := by
          simp [hcard, hpane]
        simp only [hcond, Bool.false_eq_true, if_false]
        apply List.mem_append.mpr
        right
        refine List.mem_map.mpr ⟨entry, hentry, ?_⟩
        rw [hpath]
        simp only [Option.some_bind]
        congr 1
        rw [dbIdRow, hint]
        simp only [Option.some_bind]
        rw [List.getLast?_eq_getLast _ hrne]

/-- C4 counterexample: a `PullLevel` with non-empty `path_attributes`
and `cardinality_many = false` but empty `pull_attributes` takes the
leaf branch: the single emitted row is the interleaved path with no
`db__id` presence row, although the claim (quantified only over
`path_attributes` and `cardinality_many`) predicts one per path. -/
theorem pullLevel_presence_row_counterexample :
    PullLevel.implement ⟨[7], 0, [], ["a"], false⟩ (fun _ => none)
      ⟨[0], [(some [Value.Eid 0], (0, 0), 1)], []⟩ [] =
    Except.ok
      (⟨[7], [(some [Value.Eid 0, Value.Aid ("a")], (0, 0), 1)], []⟩, [])
  ∧ Value.Aid ("db__id") ∉ [Value.Eid 0, Value.Aid ("a")] :=
  ⟨rfl, by decide⟩

/-- C4 witness: the amended presence-row law applied at the concrete
inputs of the C3 scenario, producing the `db__id` row. -/
theorem pullLevel_presence_row_spec_witness :
    (some [Value.Eid 1, Value.Aid ("a"), Value.Aid ("db__id"), Value.Eid 2],
      ((0, 0) : NestedTime), (1 : Int)) ∈
      [(some [Value.Eid 1, Value.Aid ("a"), Value.Aid ("b"), Value.Str ("v")],
         ((0, 0) : NestedTime), (1 : Int)),
       (some [Value.Eid 1, Value.Aid ("a"), Value.Aid ("db__id"), Value.Eid 2],
         ((0, 0) : NestedTime), (1 : Int))] := by
  obtain ⟨init, last, hint, hmem⟩ := pullLevel_presence_row_spec
    ⟨[], 0, ["b"], ["a"], false⟩
    (fun a => if a = "b" then
      some ⟨[0], [((Value.Eid 1, Value.Str ("v")), 0, 1)], 5⟩ else none)
    ⟨[0, 1], [(some [Value.Eid 1, Value.Eid 2], (0, 0), 1)], []⟩ [] [5]
    ⟨[],
      [(some [Value.Eid 1, Value.Aid ("a"), Value.Aid ("b"), Value.Str ("v")],
         (0, 0), 1),
       (some [Value.Eid 1, Value.Aid ("a"), Value.Aid ("db__id"), Value.Eid 2],
         (0, 0), 1)],
      []⟩
    (by decide) (by decide) rfl rfl
    (some [Value.Eid 1, Value.Eid 2], (0, 0), 1) (List.mem_cons_self _ _)
    [Value.Eid 1, Value.Eid 2] rfl (by decide) (by decide)
  have hcalc : interleave [Value.Eid 1, Value.Eid 2] ["a"] =
      some [Value.Eid 1, Value.Aid ("a"), Value.Eid 2] := rfl
  rw [hcalc] at hint
  simp only [Option.some.injEq] at hint
  have hd : init = [Value.Eid 1, Value.Aid ("a")] := by
    have h0 := congrArg List.dropLast hint
    simp only [List.dropLast_concat] at h0
    exact h0.symm
  have hg : last = Value.Eid 2 := by
    have h0 := congrArg List.getLast? hint
    simp only [List.getLast?_concat] at h0
    have h2 : ([Value.Eid 1, Value.Aid ("a"), Value.Eid 2] : List Value).getLast? =
        some (Value.Eid 2) := rfl
    rw [h2] at h0
    exact (Option.some.inj h0).symm
  rw [hd, hg] at hmem
  exact hmem
